import Mathlib

/-!
Verification of the `units` compile-time dimensional-analysis library.

The C++ sources are shallowly embedded as executable Lean definitions:

* `include/units/core/ratio.hpp` — exact rationals with overflow-checked
  arithmetic over the 128-bit signed integer type `ratio_int_t`
  (`__int128`, the primary configuration of the library).  Machine
  integers are modelled as `Int` together with the explicit range
  `[-2^127, 2^127 - 1]`; a computation that the C++ code aborts at
  compile time (a `throw` inside `consteval`, or a failed
  `static_assert`) is modelled as `Option.none`.
* `include/units/core/quantity_spec.hpp` — the quantity-kind forest.
  C++ types forming the hierarchy are modelled by the inductive `Spec`;
  nominal distinctness of C++ types is modelled by a numeric tag.
* `include/units/core/unit.hpp`, `reference.hpp`, `quantity.hpp`,
  `quantity_point.hpp` — units carry their magnitude ratio, references
  pair a spec with a unit, quantities and points carry a rational value
  (the C++ templates are generic in the representation type `Rep`; the
  embedding instantiates `Rep` at `ℚ`, for which materialising an exact
  ratio and all casts are exact).

C++ `/` on integers truncates toward zero, which is `Int.tdiv` in Lean;
the embedding uses `Int.tdiv` wherever the source divides.
-/

namespace UnitsCpp

set_option maxRecDepth 40000

/-- Largest value of `ratio_int_t` (`__int128`):
`detail::ratio_limits<ratio_int_t>::max()`. -/
def RMAX : Int := 2 ^ 127 - 1

/-- Smallest value of `ratio_int_t` (`__int128`):
`detail::ratio_limits<ratio_int_t>::min()`. -/
def RMIN : Int := -(2 ^ 127)

/-- The set of values representable in `ratio_int_t`. -/
def InRange (x : Int) : Prop := RMIN ≤ x ∧ x ≤ RMAX

instance (x : Int) : Decidable (InRange x) := by
  unfold InRange; infer_instance

/-- `detail::abs` from ratio.hpp: compile-time absolute value. -/
def iabs (v : Int) : Int := if v < 0 then -v else v

/-- `detail::sign` from ratio.hpp: returns -1, 0, or 1. -/
def sign (v : Int) : Int :=
  (if 0 < v then 1 else 0) - (if v < 0 then 1 else 0)

/-- `detail::gcd` from ratio.hpp: Euclid's algorithm on the absolute
values of the operands, so it agrees with `Int.gcd` (cast to `Int`). -/
def gcdI (a b : Int) : Int := Int.gcd a b

/-- `detail::mul_overflow`: check whether a multiplication of two
`ratio_int_t` values would overflow.  The C++ divisions truncate toward
zero (`Int.tdiv`). -/
def mul_overflow (a b : Int) : Bool :=
  if a = 0 ∨ b = 0 then false
  else if 0 < a then
    if 0 < b then decide (RMAX.tdiv b < a)
    else decide (b < RMIN.tdiv a)
  else if 0 < b then decide (a < RMIN.tdiv b)
  else decide (a ≠ 0 ∧ b < RMAX.tdiv a)

/-- `detail::add_overflow`: check whether an addition of two
`ratio_int_t` values would overflow. -/
def add_overflow (a b : Int) : Bool :=
  if 0 < b ∧ RMAX - b < a then true
  else if b < 0 ∧ a < RMIN - b then true
  else false

/-- `detail::safe_mul`: multiplication that aborts the compile-time
computation on overflow (`throw` modelled as `none`). -/
def safe_mul (a b : Int) : Option Int :=
  if mul_overflow a b then none else some (a * b)

/-- `detail::safe_add`: addition that aborts the compile-time
computation on overflow. -/
def safe_add (a b : Int) : Option Int :=
  if add_overflow a b then none else some (a + b)

/-- The `while (exp > 0)` loop body of `detail::power` (repeated
squaring; the odd-bit multiply happens before the squaring, matching
the C++ statement order, and the base is squared only while
`exp > 1`). -/
def power_loop (base result : Int) (exp : Nat) : Option Int :=
  if h : exp = 0 then some result
  else
    (if exp % 2 = 1 then safe_mul result base else some result).bind fun result' =>
    (if 1 < exp then safe_mul base base else some base).bind fun base' =>
    power_loop base' result' (exp / 2)
termination_by exp
decreasing_by exact Nat.div_lt_self (Nat.pos_of_ne_zero h) one_lt_two

/-- `detail::power`: compile-time integer power; a negative exponent
aborts the computation. -/
def power (base exp : Int) : Option Int :=
  if exp < 0 then none
  else if exp = 0 then some 1
  else power_loop base 1 exp.toNat

/-- The data of a `units::ratio<Num, Den>` instantiation: its `num` and
`den` static members. -/
structure ratio where
  num : Int
  den : Int
deriving DecidableEq, Repr

/-- Instantiating `units::ratio<Num, Den>`: `num = sign(Den) * Num / gcd`
and `den = abs(Den) / gcd` (both divisions are exact). -/
def ratio.norm (Num Den : Int) : ratio :=
  { num := (sign Den * Num).tdiv (gcdI Num Den)
    den := (iabs Den).tdiv (gcdI Num Den) }

/-- The invariant of a constructed ratio: positive denominator, and
numerator and denominator coprime (`Int.gcd` takes absolute values, so
this is `gcd(|num|, den) = 1`). -/
def ratio.Canonical (r : ratio) : Prop :=
  0 < r.den ∧ Int.gcd r.num r.den = 1

instance (r : ratio) : Decidable r.Canonical := by
  unfold ratio.Canonical; infer_instance

/-- The rational number denoted by a ratio (the exact value that
`ratio::value<T>()` materialises). -/
def ratio.toRat (r : ratio) : ℚ := (r.num : ℚ) / (r.den : ℚ)

/-- `detail::ratio_add_impl`: scale the denominators by their gcd,
combine the numerators with overflow-checked arithmetic, and return the
result through a fresh (normalizing) `ratio` instantiation. -/
def ratio_add (a b : ratio) : Option ratio :=
  let g := gcdI a.den b.den
  let d1_scaled := a.den.tdiv g
  let d2_scaled := b.den.tdiv g
  (safe_mul a.num d2_scaled).bind fun t1 =>
  (safe_mul b.num d1_scaled).bind fun t2 =>
  (safe_add t1 t2).bind fun n =>
  (safe_mul a.den d2_scaled).bind fun d =>
  some (ratio.norm n d)

/-- `detail::ratio_subtract_impl`: add the (normalized) negation. -/
def ratio_subtract (a b : ratio) : Option ratio :=
  ratio_add a (ratio.norm (-b.num) b.den)

/-- `detail::ratio_multiply_impl`: cross-reduce by gcds, multiply with
overflow checks, and renormalize. -/
def ratio_multiply (a b : ratio) : Option ratio :=
  let g1 := gcdI a.num b.den
  let g2 := gcdI b.num a.den
  (safe_mul (a.num.tdiv g1) (b.num.tdiv g2)).bind fun n =>
  (safe_mul (a.den.tdiv g2) (b.den.tdiv g1)).bind fun d =>
  some (ratio.norm n d)

/-- `detail::ratio_divide_impl`: multiply by the (normalized) inverse;
a zero divisor fails the `static_assert`. -/
def ratio_divide (a b : ratio) : Option ratio :=
  if b.num = 0 then none
  else ratio_multiply a (ratio.norm b.den b.num)

/-- `detail::ratio_power_impl` together with its `Exp = 0` and `Exp = 1`
specializations; a zero base with negative exponent fails the
`static_assert`. -/
def ratio_power (r : ratio) (e : Int) : Option ratio :=
  if e = 0 then some (ratio.norm 1 1)
  else if e = 1 then some (ratio.norm r.num r.den)
  else if 0 ≤ e then
    (power r.num e).bind fun n =>
    (power r.den e).bind fun d =>
    some (ratio.norm n d)
  else if r.num = 0 then none
  else
    (power r.den (-e)).bind fun n =>
    (power r.num (-e)).bind fun d =>
    some (ratio.norm n d)

/-- `detail::ratio_negate_impl`. -/
def ratio_negate (r : ratio) : ratio := ratio.norm (-r.num) r.den

/-- `detail::ratio_abs_impl`. -/
def ratio_abs (r : ratio) : ratio := ratio.norm (iabs r.num) r.den

/-- `detail::ratio_inverse_impl`; inverting zero fails the
`static_assert`. -/
def ratio_inverse (r : ratio) : Option ratio :=
  if r.num = 0 then none
  else some (ratio.norm r.den r.num)

/-! Basic facts about the embedded primitives. -/

theorem ratio.ext {r s : ratio} (h1 : r.num = s.num) (h2 : r.den = s.den) : r = s := by
  cases r; cases s; cases h1; cases h2; rfl

theorem iabs_eq_natAbs (v : Int) : iabs v = (v.natAbs : Int) := by
  unfold iabs; split_ifs <;> omega

theorem iabs_pos {v : Int} (h : v ≠ 0) : 0 < iabs v := by
  unfold iabs; split_ifs <;> omega

theorem sign_of_pos {v : Int} (h : 0 < v) : sign v = 1 := by
  unfold sign; rw [if_pos h, if_neg (by omega)]; omega

theorem sign_of_neg {v : Int} (h : v < 0) : sign v = -1 := by
  unfold sign; rw [if_neg (by omega), if_pos h]; omega

theorem sign_natAbs {v : Int} (h : v ≠ 0) : (sign v).natAbs = 1 := by
  rcases lt_or_gt_of_ne h with h' | h'
  · rw [sign_of_neg h']; rfl
  · rw [sign_of_pos h']; rfl

theorem sign_mul_self (v : Int) : sign v * v = iabs v := by
  unfold sign iabs; split_ifs <;> ring_nf <;> omega

theorem gcdI_dvd_left (a b : Int) : gcdI a b ∣ a := Int.gcd_dvd_left

theorem gcdI_dvd_right (a b : Int) : gcdI a b ∣ b := Int.gcd_dvd_right

theorem gcdI_pos_right (a : Int) {b : Int} (h : b ≠ 0) : 0 < gcdI a b := by
  unfold gcdI; exact_mod_cast Int.gcd_pos_of_ne_zero_right a h

theorem tdiv_eq_ediv_of_dvd {a b : Int} (h : b ∣ a) : a.tdiv b = a / b :=
  Int.tdiv_eq_ediv_of_dvd h

theorem tdiv_mul_cancel_of_dvd {a b : Int} (h : b ∣ a) : a.tdiv b * b = a := by
  rw [tdiv_eq_ediv_of_dvd h]; exact Int.ediv_mul_cancel h

theorem tdiv_pos_of_dvd {x g : Int} (hx : 0 < x) (hg : 0 < g) (h : g ∣ x) :
    0 < x.tdiv g := by
  obtain ⟨k, rfl⟩ := h
  rw [tdiv_eq_ediv_of_dvd ⟨k, rfl⟩, Int.mul_ediv_cancel_left _ (by omega)]
  nlinarith

/-! Characterisation of the normalized `ratio<Num, Den>` instantiation. -/

theorem norm_num_mul_gcd (N D : Int) :
    (ratio.norm N D).num * gcdI N D = sign D * N := by
  have hdvd : gcdI N D ∣ sign D * N := (gcdI_dvd_left N D).mul_left (sign D)
  unfold ratio.norm; dsimp only
  rw [tdiv_eq_ediv_of_dvd hdvd]; exact Int.ediv_mul_cancel hdvd

theorem norm_den_mul_gcd (N D : Int) :
    (ratio.norm N D).den * gcdI N D = iabs D := by
  have hdvd : gcdI N D ∣ iabs D := by
    rw [iabs_eq_natAbs]; exact Int.dvd_natAbs.mpr (gcdI_dvd_right N D)
  unfold ratio.norm; dsimp only
  rw [tdiv_eq_ediv_of_dvd hdvd]; exact Int.ediv_mul_cancel hdvd

theorem norm_den_pos (N D : Int) (hD : D ≠ 0) : 0 < (ratio.norm N D).den := by
  have h1 := norm_den_mul_gcd N D
  have h2 : 0 < iabs D := iabs_pos hD
  have h3 : 0 < gcdI N D := gcdI_pos_right N hD
  nlinarith

theorem norm_gcd (N D : Int) (hD : D ≠ 0) :
    Int.gcd (ratio.norm N D).num (ratio.norm N D).den = 1 := by
  have hdvdN : gcdI N D ∣ N := gcdI_dvd_left N D
  have hdvdD : gcdI N D ∣ D := gcdI_dvd_right N D
  have hnum_abs : (ratio.norm N D).num.natAbs = (N / gcdI N D).natAbs := by
    have hnum : (ratio.norm N D).num = sign D * (N / gcdI N D) := by
      unfold ratio.norm; dsimp only
      rw [tdiv_eq_ediv_of_dvd (hdvdN.mul_left (sign D)), Int.mul_ediv_assoc _ hdvdN]
    rw [hnum, Int.natAbs_mul, sign_natAbs hD, one_mul]
  have hden_abs : (ratio.norm N D).den.natAbs = (D / gcdI N D).natAbs := by
    rcases le_or_lt 0 D with h | h
    · have hD' : iabs D = D := by unfold iabs; rw [if_neg (by omega)]
      unfold ratio.norm; dsimp only
      rw [hD', tdiv_eq_ediv_of_dvd hdvdD]
    · have hD' : iabs D = -D := by unfold iabs; rw [if_pos h]
      unfold ratio.norm; dsimp only
      rw [hD', tdiv_eq_ediv_of_dvd ((dvd_neg).mpr hdvdD), Int.neg_ediv_of_dvd hdvdD,
          Int.natAbs_neg]
  have hgpos : 0 < Int.gcd N D := Int.gcd_pos_of_ne_zero_right N hD
  calc Int.gcd (ratio.norm N D).num (ratio.norm N D).den
      = Nat.gcd (ratio.norm N D).num.natAbs (ratio.norm N D).den.natAbs := rfl
    _ = Nat.gcd (N / gcdI N D).natAbs (D / gcdI N D).natAbs := by
        rw [hnum_abs, hden_abs]
    _ = Int.gcd (N / gcdI N D) (D / gcdI N D) := rfl
    _ = 1 := Int.gcd_div_gcd_div_gcd hgpos

theorem norm_canonical (N D : Int) (hD : D ≠ 0) : (ratio.norm N D).Canonical :=
  ⟨norm_den_pos N D hD, norm_gcd N D hD⟩

theorem norm_toRat (N D : Int) (hD : D ≠ 0) :
    (ratio.norm N D).toRat = (N : ℚ) / (D : ℚ) := by
  have hg : (0 : Int) < gcdI N D := gcdI_pos_right N hD
  have hnum := norm_num_mul_gcd N D
  have hden := norm_den_mul_gcd N D
  have hdpos := norm_den_pos N D hD
  have key : (ratio.norm N D).num * D = N * (ratio.norm N D).den := by
    apply mul_right_cancel₀ (show gcdI N D ≠ 0 by omega)
    calc (ratio.norm N D).num * D * gcdI N D
        = ((ratio.norm N D).num * gcdI N D) * D := by ring
      _ = (sign D * N) * D := by rw [hnum]
      _ = N * (sign D * D) := by ring
      _ = N * iabs D := by rw [sign_mul_self]
      _ = N * ((ratio.norm N D).den * gcdI N D) := by rw [hden]
      _ = N * (ratio.norm N D).den * gcdI N D := by ring
  unfold ratio.toRat
  rw [div_eq_div_iff (by exact_mod_cast hdpos.ne') (by exact_mod_cast hD)]
  exact_mod_cast key

theorem canonical_norm_eq_self {r : ratio} (h : r.Canonical) :
    ratio.norm r.num r.den = r := by
  obtain ⟨hpos, hgcd⟩ := h
  have hg : gcdI r.num r.den = 1 := by unfold gcdI; exact_mod_cast hgcd
  have h1 : sign r.den = 1 := sign_of_pos hpos
  have h2 : iabs r.den = r.den := by unfold iabs; rw [if_neg (by omega)]
  unfold ratio.norm
  exact ratio.ext (by dsimp only; rw [hg, h1, Int.tdiv_one, one_mul])
    (by dsimp only; rw [hg, h2, Int.tdiv_one])

theorem canonical_den_ne_zero {r : ratio} (h : r.Canonical) : (r.den : ℚ) ≠ 0 :=
  Int.cast_ne_zero.mpr h.1.ne'

theorem canonical_toRat_inj {r s : ratio} (hr : r.Canonical) (hs : s.Canonical)
    (h : r.toRat = s.toRat) : r = s := by
  have hrd := canonical_den_ne_zero hr
  have hsd := canonical_den_ne_zero hs
  unfold ratio.toRat at h
  rw [div_eq_div_iff hrd hsd] at h
  have key : r.num * s.den = s.num * r.den := by exact_mod_cast h
  have cop_r : IsCoprime r.den r.num := by
    rw [← Int.gcd_eq_one_iff_coprime, Int.gcd_comm]; exact_mod_cast hr.2
  have cop_s : IsCoprime s.den s.num := by
    rw [← Int.gcd_eq_one_iff_coprime, Int.gcd_comm]; exact_mod_cast hs.2
  have hdvd_rs : r.den ∣ s.den := by
    refine cop_r.dvd_of_dvd_mul_left ?_
    exact key ▸ Dvd.intro_left s.num rfl
  have hdvd_sr : s.den ∣ r.den := by
    refine cop_s.dvd_of_dvd_mul_left ?_
    exact key.symm ▸ Dvd.intro_left r.num rfl
  have hden : r.den = s.den := Int.dvd_antisymm hr.1.le hs.1.le hdvd_rs hdvd_sr
  have hnum : r.num = s.num := by
    rw [hden] at key
    exact mul_right_cancel₀ (by exact_mod_cast hsd) key
  exact ratio.ext hnum hden

/-! Exact characterisation of the overflow detectors. -/

theorem not_inRange_iff {p : Int} : ¬ InRange p ↔ RMAX < p ∨ p < RMIN := by
  unfold InRange RMAX RMIN; omega

theorem mul_overflow_iff (a b : Int) : mul_overflow a b = true ↔ ¬ InRange (a * b) := by
  rw [not_inRange_iff]
  unfold mul_overflow
  by_cases h0 : a = 0 ∨ b = 0
  · rw [if_pos h0]
    rcases h0 with rfl | rfl <;>
      simp only [Int.zero_mul, Int.mul_zero, Bool.false_eq_true, false_iff] <;>
      · unfold RMAX RMIN; omega
  · rw [if_neg h0]
    push_neg at h0
    obtain ⟨ha0, hb0⟩ := h0
    by_cases ha : 0 < a
    · rw [if_pos ha]
      by_cases hb : 0 < b
      · rw [if_pos hb]
        have t : RMAX.tdiv b = RMAX / b :=
          Int.tdiv_eq_ediv (by unfold RMAX; omega) hb.le
        rw [t, decide_eq_true_eq, Int.ediv_lt_iff_lt_mul hb]
        have hpos : 0 < a * b := mul_pos ha hb
        constructor
        · intro h; exact Or.inl (by nlinarith [h])
        · rintro (h | h)
          · nlinarith [h]
          · exfalso; unfold RMIN at h; omega
      · rw [if_neg hb]
        have hbneg : b < 0 := by omega
        have t : RMIN.tdiv a = -((2 ^ 127 : Int) / a) := by
          rw [show RMIN = -(2 ^ 127 : Int) from rfl, Int.neg_tdiv,
            Int.tdiv_eq_ediv (by omega) ha.le]
        rw [t, decide_eq_true_eq, lt_neg, Int.ediv_lt_iff_lt_mul ha]
        have hneg : a * b < 0 := mul_neg_of_pos_of_neg ha hbneg
        have hmul : -b * a = -(a * b) := by ring
        rw [hmul]
        constructor
        · intro h; refine Or.inr ?_; unfold RMIN; omega
        · rintro (h | h)
          · exfalso; unfold RMAX at h; omega
          · unfold RMIN at h; omega
    · rw [if_neg ha]
      have haneg : a < 0 := by omega
      by_cases hb : 0 < b
      · rw [if_pos hb]
        have t : RMIN.tdiv b = -((2 ^ 127 : Int) / b) := by
          rw [show RMIN = -(2 ^ 127 : Int) from rfl, Int.neg_tdiv,
            Int.tdiv_eq_ediv (by omega) hb.le]
        rw [t, decide_eq_true_eq, lt_neg, Int.ediv_lt_iff_lt_mul hb]
        have hneg : a * b < 0 := mul_neg_of_neg_of_pos haneg hb
        have hmul : -a * b = -(a * b) := by ring
        rw [hmul]
        constructor
        · intro h; refine Or.inr ?_; unfold RMIN; omega
        · rintro (h | h)
          · exfalso; unfold RMAX at h; omega
          · unfold RMIN at h; omega
      · rw [if_neg hb]
        have hbneg : b < 0 := by omega
        have t : RMAX.tdiv a = -(RMAX / (-a)) := by
          conv_lhs => rw [show a = -(-a) by ring]
          rw [Int.tdiv_neg, Int.tdiv_eq_ediv (by unfold RMAX; omega) (by omega)]
        rw [t, decide_eq_true_eq, and_iff_right ha0, lt_neg,
          Int.ediv_lt_iff_lt_mul (by omega : (0 : Int) < -a)]
        have hpos : 0 < a * b := mul_pos_of_neg_of_neg haneg hbneg
        have hmul : -b * -a = a * b := by ring
        rw [hmul]
        constructor
        · intro h; exact Or.inl h
        · rintro (h | h)
          · exact h
          · exfalso; unfold RMIN at h; omega

theorem add_overflow_eq (a b : Int) :
    add_overflow a b
      = decide ((0 < b ∧ RMAX - b < a) ∨ (b < 0 ∧ a < RMIN - b)) := by
  unfold add_overflow; split_ifs <;> simp_all

theorem add_overflow_iff (a b : Int) (ha : InRange a) (hb : InRange b) :
    add_overflow a b = true ↔ ¬ InRange (a + b) := by
  rw [add_overflow_eq, decide_eq_true_eq]
  unfold InRange RMAX RMIN at *
  omega

/-! Exact characterisation of `safe_mul` / `safe_add`. -/

theorem safe_mul_none_iff (a b : Int) : safe_mul a b = none ↔ ¬ InRange (a * b) := by
  unfold safe_mul
  split_ifs with h
  · simp only [true_iff]; exact (mul_overflow_iff a b).mp h
  · have hin : InRange (a * b) := by
      by_contra hc; exact h ((mul_overflow_iff a b).mpr hc)
    simp [hin]

theorem safe_mul_some_iff (a b v : Int) :
    safe_mul a b = some v ↔ InRange (a * b) ∧ v = a * b := by
  unfold safe_mul
  split_ifs with h
  · have := (mul_overflow_iff a b).mp h
    simp [this]
  · have hin : InRange (a * b) := by
      by_contra hc; exact h ((mul_overflow_iff a b).mpr hc)
    simp [hin, eq_comm]

theorem safe_mul_some_val {a b v : Int} (h : safe_mul a b = some v) :
    v = a * b ∧ InRange v := by
  obtain ⟨h1, h2⟩ := (safe_mul_some_iff a b v).mp h
  exact ⟨h2, h2 ▸ h1⟩

theorem safe_mul_congr {a b c d : Int} (h : a * b = c * d) :
    safe_mul a b = safe_mul c d := by
  unfold safe_mul
  have heq : mul_overflow a b = mul_overflow c d := by
    have h1 : mul_overflow a b = true ↔ ¬ InRange (c * d) := h ▸ mul_overflow_iff a b
    have h2 := mul_overflow_iff c d
    cases hx : mul_overflow a b <;> cases hy : mul_overflow c d <;> simp_all
  rw [heq, h]

theorem safe_add_none_iff (a b : Int) (ha : InRange a) (hb : InRange b) :
    safe_add a b = none ↔ ¬ InRange (a + b) := by
  unfold safe_add
  split_ifs with h
  · simp only [true_iff]; exact (add_overflow_iff a b ha hb).mp h
  · have hin : InRange (a + b) := by
      by_contra hc; exact h ((add_overflow_iff a b ha hb).mpr hc)
    simp [hin]

theorem safe_add_some_val {a b v : Int} (h : safe_add a b = some v) : v = a + b := by
  unfold safe_add at h
  split_ifs at h
  exact (Option.some.inj h).symm

theorem safe_add_comm (a b : Int) (ha : InRange a) (hb : InRange b) :
    safe_add a b = safe_add b a := by
  unfold safe_add
  have heq : add_overflow a b = add_overflow b a := by
    rw [add_overflow_eq, add_overflow_eq, decide_eq_decide]
    unfold InRange RMAX RMIN at *
    omega
  rw [heq, Int.add_comm]

theorem option_bind_comm {α β γ : Type} (x : Option α) (y : Option β)
    (f : α → β → Option γ) :
    (x.bind fun a => y.bind fun b => f a b)
      = (y.bind fun b => x.bind fun a => f a b) := by
  cases x <;> cases y <;> rfl

theorem option_bind_congr {α β : Type} {x : Option α} {f g : α → Option β}
    (h : ∀ a, x = some a → f a = g a) : x.bind f = x.bind g := by
  cases hx : x with
  | none => rfl
  | some a => exact h a hx

/-! Exactness and canonicity of the ratio arithmetic. -/

theorem ratio_add_some {a b r : ratio} (ha : a.Canonical) (hb : b.Canonical)
    (h : ratio_add a b = some r) :
    r.Canonical ∧ r.toRat = a.toRat + b.toRat := by
  simp only [ratio_add, Option.bind_eq_some] at h
  obtain ⟨t1, ht1, t2, ht2, n, hn, d, hd, hr⟩ := h
  obtain ⟨ht1v, ht1r⟩ := safe_mul_some_val ht1
  obtain ⟨ht2v, ht2r⟩ := safe_mul_some_val ht2
  have hnv := safe_add_some_val hn
  obtain ⟨hdv, -⟩ := safe_mul_some_val hd
  have hr' : r = ratio.norm n d := (Option.some.inj hr).symm
  have hgpos : 0 < gcdI a.den b.den := gcdI_pos_right a.den hb.1.ne'
  have hd1pos : 0 < a.den.tdiv (gcdI a.den b.den) :=
    tdiv_pos_of_dvd ha.1 hgpos (gcdI_dvd_left _ _)
  have hd2pos : 0 < b.den.tdiv (gcdI a.den b.den) :=
    tdiv_pos_of_dvd hb.1 hgpos (gcdI_dvd_right _ _)
  have hdpos : 0 < d := by rw [hdv]; exact mul_pos ha.1 hd2pos
  subst hr'
  refine ⟨norm_canonical n d hdpos.ne', ?_⟩
  rw [norm_toRat n d hdpos.ne', hnv, ht1v, ht2v, hdv]
  unfold ratio.toRat
  have e1 : a.den.tdiv (gcdI a.den b.den) * gcdI a.den b.den = a.den :=
    tdiv_mul_cancel_of_dvd (gcdI_dvd_left a.den b.den)
  have e2 : b.den.tdiv (gcdI a.den b.den) * gcdI a.den b.den = b.den :=
    tdiv_mul_cancel_of_dvd (gcdI_dvd_right a.den b.den)
  have key : (a.num * b.den.tdiv (gcdI a.den b.den)
        + b.num * a.den.tdiv (gcdI a.den b.den)) * (a.den * b.den)
      = (a.num * b.den + a.den * b.num) * (a.den * b.den.tdiv (gcdI a.den b.den)) := by
    linear_combination (b.num * a.den * (b.den.tdiv (gcdI a.den b.den))) * e1
      - (b.num * a.den * (a.den.tdiv (gcdI a.den b.den))) * e2
  have hden1 : ((a.den * b.den.tdiv (gcdI a.den b.den) : Int) : ℚ) ≠ 0 := by
    exact_mod_cast (hdv ▸ hdpos).ne'
  have hden2 : (a.den : ℚ) * (b.den : ℚ) ≠ 0 :=
    mul_ne_zero (canonical_den_ne_zero ha) (canonical_den_ne_zero hb)
  rw [div_add_div _ _ (canonical_den_ne_zero ha) (canonical_den_ne_zero hb),
    div_eq_div_iff hden1 hden2]
  exact_mod_cast key

theorem ratio_multiply_some {a b r : ratio} (ha : a.Canonical) (hb : b.Canonical)
    (h : ratio_multiply a b = some r) :
    r.Canonical ∧ r.toRat = a.toRat * b.toRat := by
  simp only [ratio_multiply, Option.bind_eq_some] at h
  obtain ⟨n, hn, d, hd, hr⟩ := h
  obtain ⟨hnv, -⟩ := safe_mul_some_val hn
  obtain ⟨hdv, -⟩ := safe_mul_some_val hd
  have hr' : r = ratio.norm n d := (Option.some.inj hr).symm
  have hg1pos : 0 < gcdI a.num b.den := gcdI_pos_right a.num hb.1.ne'
  have hg2pos : 0 < gcdI b.num a.den := gcdI_pos_right b.num ha.1.ne'
  have hdd2pos : 0 < a.den.tdiv (gcdI b.num a.den) :=
    tdiv_pos_of_dvd ha.1 hg2pos (gcdI_dvd_right _ _)
  have hdd1pos : 0 < b.den.tdiv (gcdI a.num b.den) :=
    tdiv_pos_of_dvd hb.1 hg1pos (gcdI_dvd_right _ _)
  have hdpos : 0 < d := by rw [hdv]; exact mul_pos hdd2pos hdd1pos
  subst hr'
  refine ⟨norm_canonical n d hdpos.ne', ?_⟩
  rw [norm_toRat n d hdpos.ne', hnv, hdv]
  unfold ratio.toRat
  have e1 : a.num.tdiv (gcdI a.num b.den) * gcdI a.num b.den = a.num :=
    tdiv_mul_cancel_of_dvd (gcdI_dvd_left a.num b.den)
  have e2 : b.num.tdiv (gcdI b.num a.den) * gcdI b.num a.den = b.num :=
    tdiv_mul_cancel_of_dvd (gcdI_dvd_left b.num a.den)
  have e3 : a.den.tdiv (gcdI b.num a.den) * gcdI b.num a.den = a.den :=
    tdiv_mul_cancel_of_dvd (gcdI_dvd_right b.num a.den)
  have e4 : b.den.tdiv (gcdI a.num b.den) * gcdI a.num b.den = b.den :=
    tdiv_mul_cancel_of_dvd (gcdI_dvd_right a.num b.den)
  have key : (a.num.tdiv (gcdI a.num b.den) * b.num.tdiv (gcdI b.num a.den))
        * (a.den * b.den)
      = (a.num * b.num)
        * (a.den.tdiv (gcdI b.num a.den) * b.den.tdiv (gcdI a.num b.den)) := by
    linear_combination
      (a.den.tdiv (gcdI b.num a.den) * b.den.tdiv (gcdI a.num b.den)
        * b.num.tdiv (gcdI b.num a.den) * gcdI b.num a.den) * e1
      + (a.den.tdiv (gcdI b.num a.den) * b.den.tdiv (gcdI a.num b.den) * a.num) * e2
      - (a.num.tdiv (gcdI a.num b.den) * b.num.tdiv (gcdI b.num a.den) * b.den) * e3
      - (a.num.tdiv (gcdI a.num b.den) * b.num.tdiv (gcdI b.num a.den)
          * a.den.tdiv (gcdI b.num a.den) * gcdI b.num a.den) * e4
  have hden1 : ((a.den.tdiv (gcdI b.num a.den) * b.den.tdiv (gcdI a.num b.den) : Int)
      : ℚ) ≠ 0 := by
    exact_mod_cast (hdv ▸ hdpos).ne'
  have hden2 : (a.den : ℚ) * (b.den : ℚ) ≠ 0 :=
    mul_ne_zero (canonical_den_ne_zero ha) (canonical_den_ne_zero hb)
  rw [div_mul_div_comm, div_eq_div_iff hden1 hden2]
  exact_mod_cast key

theorem ratio_subtract_some {a b r : ratio} (ha : a.Canonical) (hb : b.Canonical)
    (h : ratio_subtract a b = some r) :
    r.Canonical ∧ r.toRat = a.toRat - b.toRat := by
  unfold ratio_subtract at h
  have hbn : (ratio.norm (-b.num) b.den).Canonical := norm_canonical _ _ hb.1.ne'
  obtain ⟨hc, hv⟩ := ratio_add_some ha hbn h
  refine ⟨hc, ?_⟩
  rw [hv, norm_toRat _ _ hb.1.ne']
  unfold ratio.toRat
  push_cast
  ring

theorem ratio_divide_some {a b r : ratio} (ha : a.Canonical) (hb : b.Canonical)
    (h : ratio_divide a b = some r) :
    r.Canonical ∧ r.toRat = a.toRat / b.toRat := by
  unfold ratio_divide at h
  split_ifs at h with hz
  have hinv : (ratio.norm b.den b.num).Canonical := norm_canonical _ _ hz
  obtain ⟨hc, hv⟩ := ratio_multiply_some ha hinv h
  refine ⟨hc, ?_⟩
  rw [hv, norm_toRat _ _ hz]
  unfold ratio.toRat
  have hbn : (b.num : ℚ) ≠ 0 := Int.cast_ne_zero.mpr hz
  have hbd : (b.den : ℚ) ≠ 0 := canonical_den_ne_zero hb
  field_simp

theorem power_loop_some (exp : Nat) : ∀ base result v : Int,
    power_loop base result exp = some v → v = result * base ^ exp := by
  induction exp using Nat.strong_induction_on with
  | _ exp ih =>
    intro base result v h
    rw [power_loop] at h
    by_cases h0 : exp = 0
    · rw [dif_pos h0] at h
      subst h0
      rw [pow_zero, mul_one]
      exact (Option.some.inj h).symm
    · rw [dif_neg h0] at h
      have hdiv : exp / 2 < exp := Nat.div_lt_self (Nat.pos_of_ne_zero h0) one_lt_two
      simp only [Option.bind_eq_some] at h
      obtain ⟨result', hres, base', hbase, h⟩ := h
      have hv := ih (exp / 2) hdiv _ _ _ h
      have hresv : result' = if exp % 2 = 1 then result * base else result := by
        split_ifs at hres ⊢ with hc
        · exact (safe_mul_some_val hres).1
        · exact (Option.some.inj hres).symm
      have hbasev : base' = if 1 < exp then base * base else base := by
        split_ifs at hbase ⊢ with hc
        · exact (safe_mul_some_val hbase).1
        · exact (Option.some.inj hbase).symm
      rw [hv, hresv, hbasev]
      by_cases hodd : exp % 2 = 1 <;> by_cases h1 : 1 < exp
      · rw [if_pos hodd, if_pos h1]
        have hexp : exp = 2 * (exp / 2) + 1 := by omega
        conv_rhs => rw [hexp]
        rw [pow_succ, pow_mul]
        ring
      · have hone : exp = 1 := by omega
        rw [if_pos hodd, if_neg h1, hone]
        norm_num
      · rw [if_neg hodd, if_pos h1]
        have hexp : exp = 2 * (exp / 2) := by omega
        conv_rhs => rw [hexp]
        rw [pow_mul]
        ring
      · exfalso
        omega

theorem power_some {base exp v : Int} (h : power base exp = some v) :
    v = base ^ exp.toNat := by
  unfold power at h
  split_ifs at h with h1 h2
  · subst h2
    simp only [Int.toNat_zero, pow_zero]
    exact (Option.some.inj h).symm
  · rw [power_loop_some exp.toNat base 1 v h, one_mul]

theorem ratio_power_some {r : ratio} {e : Int} {s : ratio} (hr : r.Canonical)
    (h : ratio_power r e = some s) :
    s.Canonical ∧
      (0 ≤ e → s.toRat = r.toRat ^ e) ∧
      (e < 0 → r.num ≠ 0 ∧ s.toRat = r.toRat ^ e) := by
  unfold ratio_power at h
  split_ifs at h with h0 h1 h2 h3
  · have hs : s = ratio.norm 1 1 := (Option.some.inj h).symm
    subst hs h0
    refine ⟨norm_canonical 1 1 one_ne_zero, fun _ => ?_, fun hlt => absurd hlt (by omega)⟩
    rw [norm_toRat 1 1 one_ne_zero, zpow_zero]
    norm_num
  · have hs : s = ratio.norm r.num r.den := (Option.some.inj h).symm
    subst hs h1
    rw [canonical_norm_eq_self hr]
    exact ⟨hr, fun _ => (zpow_one _).symm, fun hlt => absurd hlt (by omega)⟩
  · simp only [Option.bind_eq_some] at h
    obtain ⟨n, hn, d, hd, hs⟩ := h
    have hs' : s = ratio.norm n d := (Option.some.inj hs).symm
    have hnv := power_some hn
    have hdv := power_some hd
    have hdpos : 0 < d := by rw [hdv]; exact pow_pos hr.1 _
    subst hs'
    refine ⟨norm_canonical n d hdpos.ne', fun _ => ?_, fun hlt => absurd hlt (by omega)⟩
    rw [norm_toRat n d hdpos.ne', hnv, hdv]
    unfold ratio.toRat
    push_cast
    rw [← div_pow,
      show ((r.num : ℚ) / (r.den : ℚ)) ^ e.toNat
          = ((r.num : ℚ) / (r.den : ℚ)) ^ (e.toNat : ℤ) from (zpow_natCast _ _).symm,
      Int.toNat_of_nonneg h2]
  · simp only [Option.bind_eq_some] at h
    obtain ⟨n, hn, d, hd, hs⟩ := h
    have hs' : s = ratio.norm n d := (Option.some.inj hs).symm
    have hnv := power_some hn
    have hdv := power_some hd
    have hd0 : d ≠ 0 := by rw [hdv]; exact pow_ne_zero _ h3
    subst hs'
    refine ⟨norm_canonical n d hd0, fun hge => absurd hge h2, fun _ => ⟨h3, ?_⟩⟩
    rw [norm_toRat n d hd0, hnv, hdv]
    unfold ratio.toRat
    push_cast
    have hk : ((-e).toNat : ℤ) = -e := Int.toNat_of_nonneg (by omega)
    calc ((r.den : ℚ) ^ (-e).toNat) / ((r.num : ℚ) ^ (-e).toNat)
        = (((r.num : ℚ) ^ (-e).toNat) / ((r.den : ℚ) ^ (-e).toNat))⁻¹ :=
          (inv_div _ _).symm
      _ = (((r.num : ℚ) / (r.den : ℚ)) ^ (-e).toNat)⁻¹ := by rw [div_pow]
      _ = ((r.num : ℚ) / (r.den : ℚ)) ^ (-((-e).toNat : ℤ)) := by
          rw [zpow_neg, zpow_natCast]
      _ = ((r.num : ℚ) / (r.den : ℚ)) ^ e := by rw [hk, neg_neg]

theorem ratio_negate_spec {r : ratio} (h : r.Canonical) :
    (ratio_negate r).Canonical ∧ (ratio_negate r).toRat = -r.toRat := by
  unfold ratio_negate
  refine ⟨norm_canonical _ _ h.1.ne', ?_⟩
  rw [norm_toRat _ _ h.1.ne']
  unfold ratio.toRat
  push_cast
  ring

theorem ratio_abs_spec {r : ratio} (h : r.Canonical) :
    (ratio_abs r).Canonical ∧ (ratio_abs r).toRat = |r.toRat| := by
  unfold ratio_abs
  refine ⟨norm_canonical _ _ h.1.ne', ?_⟩
  rw [norm_toRat _ _ h.1.ne']
  unfold ratio.toRat
  rw [abs_div, abs_of_pos (show (0 : ℚ) < (r.den : ℚ) by exact_mod_cast h.1)]
  congr 1
  rw [iabs_eq_natAbs]
  push_cast [Int.cast_natAbs]
  rfl

theorem ratio_inverse_spec {r : ratio} {s : ratio}
    (h : ratio_inverse r = some s) : s.Canonical ∧ s.toRat = r.toRat⁻¹ := by
  unfold ratio_inverse at h
  split_ifs at h with hz
  have hs : s = ratio.norm r.den r.num := (Option.some.inj h).symm
  subst hs
  refine ⟨norm_canonical _ _ hz, ?_⟩
  rw [norm_toRat _ _ hz]
  unfold ratio.toRat
  rw [inv_div]

/-! Commutativity and associativity of the ratio arithmetic. -/

theorem ratio_add_comm (a b : ratio) : ratio_add a b = ratio_add b a := by
  have hprod : a.den * (b.den.tdiv (gcdI a.den b.den))
      = b.den * (a.den.tdiv (gcdI a.den b.den)) := by
    have h1 : gcdI a.den b.den ∣ a.den := gcdI_dvd_left _ _
    have h2 : gcdI a.den b.den ∣ b.den := gcdI_dvd_right _ _
    rw [tdiv_eq_ediv_of_dvd h2, tdiv_eq_ediv_of_dvd h1, ← Int.mul_ediv_assoc _ h2,
      ← Int.mul_ediv_assoc _ h1, Int.mul_comm a.den b.den]
  have hg : gcdI b.den a.den = gcdI a.den b.den := by
    unfold gcdI; rw [Int.gcd_comm]
  simp only [ratio_add, hg]
  refine (option_bind_comm _ _ fun t1 t2 =>
    (safe_add t1 t2).bind fun n =>
    (safe_mul a.den (b.den.tdiv (gcdI a.den b.den))).bind fun d =>
    some (ratio.norm n d)).trans ?_
  apply option_bind_congr
  intro t2 ht2
  apply option_bind_congr
  intro t1 ht1
  rw [safe_add_comm t1 t2 (safe_mul_some_val ht1).2 (safe_mul_some_val ht2).2,
    safe_mul_congr hprod]

theorem ratio_multiply_comm (a b : ratio) : ratio_multiply a b = ratio_multiply b a := by
  simp only [ratio_multiply,
    safe_mul_congr (mul_comm (a.num.tdiv (gcdI a.num b.den))
      (b.num.tdiv (gcdI b.num a.den))),
    safe_mul_congr (mul_comm (a.den.tdiv (gcdI b.num a.den))
      (b.den.tdiv (gcdI a.num b.den)))]

theorem ratio_add_assoc {a b c ab bc l1 l2 : ratio}
    (ha : a.Canonical) (hb : b.Canonical) (hc : c.Canonical)
    (h1 : ratio_add a b = some ab) (h2 : ratio_add ab c = some l1)
    (h3 : ratio_add b c = some bc) (h4 : ratio_add a bc = some l2) : l1 = l2 := by
  obtain ⟨hab_c, hab_v⟩ := ratio_add_some ha hb h1
  obtain ⟨hl1_c, hl1_v⟩ := ratio_add_some hab_c hc h2
  obtain ⟨hbc_c, hbc_v⟩ := ratio_add_some hb hc h3
  obtain ⟨hl2_c, hl2_v⟩ := ratio_add_some ha hbc_c h4
  apply canonical_toRat_inj hl1_c hl2_c
  rw [hl1_v, hab_v, hl2_v, hbc_v]
  ring

/-!
The quantity-kind hierarchy of quantity_spec.hpp.  A C++ quantity-spec
type is either a root (`quantity_spec<>`, i.e. `parent_spec =
root_quantity_spec_tag`) or has a parent spec; distinct C++ types with
the same parent are told apart by a numeric tag.  The forest is acyclic
by construction in C++ (a parent must be a previously defined type),
which the inductive structure captures.
-/

inductive Spec where
  | root (tag : Nat)
  | sub (tag : Nat) (parent : Spec)
deriving DecidableEq, Repr

/-- `is_child_of_v` / `detail::is_child_of_impl`: true when the two
specs are the same type, false at a root, and otherwise recurses along
`parent_spec`. -/
def is_child_of (c p : Spec) : Bool :=
  if c = p then true
  else
    match c with
    | .root _ => false
    | .sub _ q => is_child_of q p

/-- `implicitly_convertible_v` / `detail::implicitly_convertible_impl`:
true for the same type, true when `From` is a strict child of `To`,
false otherwise. -/
def implicitly_convertible (f t : Spec) : Bool :=
  if f = t then true
  else if is_child_of f t then true
  else false

/-- `common_quantity_spec` / `detail::common_quantity_spec_impl`: the
first common ancestor found by walking the first argument's parent
chain; `none` models the missing template specialization (a compile
error) when no common ancestor exists. -/
def common_quantity_spec (q1 q2 : Spec) : Option Spec :=
  if q1 = q2 then some q1
  else if is_child_of q1 q2 then some q2
  else if is_child_of q2 q1 then some q1
  else
    match q1 with
    | .root _ => none
    | .sub _ p => common_quantity_spec p q2

/-- The chain of ancestors reached from a spec along `parent_spec`
links (the spec's wording of the convertibility claim). -/
def ancestors : Spec → List Spec
  | .root _ => []
  | .sub _ p => p :: ancestors p

/-- Distance to the root of the parent chain. -/
def depth : Spec → Nat
  | .root _ => 0
  | .sub _ p => depth p + 1

theorem mem_ancestors_depth {T F : Spec} (h : T ∈ ancestors F) : depth T < depth F := by
  induction F with
  | root t => simp [ancestors] at h
  | sub t p ih =>
    rw [ancestors] at h
    rcases List.mem_cons.mp h with rfl | h'
    · rw [depth]; omega
    · have := ih h'
      rw [depth]; omega

theorem is_child_of_iff (F T : Spec) :
    is_child_of F T = true ↔ F = T ∨ T ∈ ancestors F := by
  induction F with
  | root t =>
    rw [is_child_of]
    by_cases h : Spec.root t = T
    · simp [h, ancestors]
    · simp [h, ancestors]
  | sub t p ih =>
    rw [is_child_of]
    by_cases h : Spec.sub t p = T
    · simp [h]
    · rw [if_neg h, ih, ancestors]
      simp only [List.mem_cons]
      constructor
      · rintro (rfl | h')
        · exact Or.inr (Or.inl rfl)
        · exact Or.inr (Or.inr h')
      · rintro (heq | rfl | h')
        · exact absurd heq h
        · exact Or.inl rfl
        · exact Or.inr h'

theorem implicitly_convertible_iff (F T : Spec) :
    implicitly_convertible F T = true ↔ F = T ∨ T ∈ ancestors F := by
  unfold implicitly_convertible
  split_ifs with h1 h2
  · simp [h1]
  · simp only [true_iff]
    exact (is_child_of_iff F T).mp h2
  · simp only [Bool.false_eq_true, false_iff]
    intro hor
    exact absurd ((is_child_of_iff F T).mpr hor) (by simp [h2])

/-!
The unit, reference, quantity and quantity-point layers.  A unit is
identified by its C++ type (numeric tag) and carries its
`magnitude_type` ratio; the representation type `Rep` of quantities and
points is instantiated at `ℚ`, for which the materialisation of an
exact conversion ratio (`ratio::value<T>()`) and all `static_cast`s
are exact.
-/

structure unit_t where
  tag : Nat
  mag : ratio
deriving DecidableEq, Repr

/-- `conversion_factor_t<FromUnit, ToUnit>` (unit.hpp): the exact ratio
`mag_divide<from_mag, to_mag>`. -/
def conversion_factor_t (fromU toU : unit_t) : Option ratio :=
  ratio_divide fromU.mag toU.mag

/-- `conversion_factor<FromUnit, ToUnit, T>()` (unit.hpp) materialised
at the exact representation `T = ℚ`. -/
def conversion_factor (fromU toU : unit_t) : Option ℚ :=
  (conversion_factor_t fromU toU).map ratio.toRat

/-- `units::reference<QSpec, UnitType>` (reference.hpp). -/
structure reference where
  spec : Spec
  unit : unit_t
deriving DecidableEq, Repr

/-- `references_compatible_v` (reference.hpp). -/
def references_compatible (r1 r2 : reference) : Bool :=
  decide (r1.spec = r2.spec) || implicitly_convertible r1.spec r2.spec
    || implicitly_convertible r2.spec r1.spec

/-- `reference_conversion_factor<FromRef, ToRef, T>()` (reference.hpp)
at `T = ℚ`: the unit conversion factor of the two units. -/
def reference_conversion_factor (fromR toR : reference) : Option ℚ :=
  conversion_factor fromR.unit toR.unit

/-- `units::quantity<Ref, Rep>` at `Rep = ℚ`: a raw value tagged with
its reference. -/
structure quantity where
  ref : reference
  val : ℚ
deriving DecidableEq, Repr

/-- The two `operator+` overloads on quantities (quantity.hpp): with
the same reference the raw values are added; with different but
compatible references the right operand is rescaled into the left
operand's unit and the result reference is
`(common_quantity_spec, unit of Ref1)`; otherwise no overload exists
(`none`). -/
def quantity_add (q1 q2 : quantity) : Option quantity :=
  if q1.ref = q2.ref then some ⟨q1.ref, q1.val + q2.val⟩
  else if references_compatible q1.ref q2.ref then
    (common_quantity_spec q1.ref.spec q2.ref.spec).bind fun cs =>
    (reference_conversion_factor q2.ref q1.ref).bind fun f =>
    some ⟨⟨cs, q1.ref.unit⟩, q1.val + q2.val * f⟩
  else none

/-- `quantity::in(ToUnit)` (quantity.hpp lines 168-176): rescale by the
conversion factor and retag with `reference<quantity_spec, ToUnit>`. -/
def quantity_in (q : quantity) (u : unit_t) : Option quantity :=
  (conversion_factor q.ref.unit u).map fun f => ⟨⟨q.ref.spec, u⟩, q.val * f⟩

/-- `quantity::force_in(ToUnit)` (quantity.hpp lines 178-186). -/
def quantity_force_in (q : quantity) (u : unit_t) : Option quantity :=
  (conversion_factor q.ref.unit u).map fun f => ⟨⟨q.ref.spec, u⟩, q.val * f⟩

/-- Representation types that can parameterise a quantity; all four are
C++ arithmetic types. -/
inductive RepTy where
  | f32
  | f64
  | i32
  | i64
deriving DecidableEq, Repr

/-- `std::convertible_to<From, To>` restricted to the arithmetic
representation types: in C++ every arithmetic type converts implicitly
to every other arithmetic type — including the narrowing conversion
`double → float` — so the concept holds for every pair. -/
def convertible_to (_fromT _toT : RepTy) : Bool := true

/-- The constraint of the implicit converting constructor
`quantity(const quantity<OtherRef, OtherRep> &)` (quantity.hpp lines
127-137): the references must differ, the source spec must be
implicitly convertible to the destination spec, and the source
representation must be `std::convertible_to` the destination
representation. -/
def quantity_implicit_conversion_exists
    (toRef fromRef : reference) (toRep fromRep : RepTy) : Bool :=
  decide (¬ toRef = fromRef) && implicitly_convertible fromRef.spec toRef.spec
    && convertible_to fromRep toRep

/-- The value computed by the converting constructor: the source value
rescaled by `reference_conversion_factor<OtherRef, Ref, Rep>()`. -/
def quantity_convert (q : quantity) (toRef : reference) : Option quantity :=
  (reference_conversion_factor q.ref toRef).map fun f => ⟨toRef, q.val * f⟩

/-!
Point origins and quantity points (quantity_point.hpp).
-/

inductive point_origin where
  | absolute (spec : Spec)
  | relative (base : point_origin) (offsetRef : reference) (offsetVal : ℚ)
deriving DecidableEq, Repr

/-- `detail::origin_offset_impl` / `origin_offset` (quantity_point.hpp
lines 384-454): 0 for the same origin (this also covers two absolute
origins of the same spec, which are the same type); `-offset`
(rescaled into the requested reference) from a relative origin to its
base; `+offset` from the base to the relative origin; `none` models
the missing specialization (compile error) in every other case. -/
def origin_offset (fromO toO : point_origin) (ref : reference) : Option ℚ :=
  if fromO = toO then some 0
  else
    match fromO, toO with
    | point_origin.relative fb fr fv, t =>
      if t = fb then
        (reference_conversion_factor fr ref).map fun c => -(fv * c)
      else
        match t with
        | point_origin.relative tb tr tv =>
          if point_origin.relative fb fr fv = tb then
            (reference_conversion_factor tr ref).map fun c => tv * c
          else none
        | _ => none
    | f, point_origin.relative tb tr tv =>
      if f = tb then (reference_conversion_factor tr ref).map fun c => tv * c
      else none
    | _, _ => none

/-- `units::quantity_point<Ref, Origin, Rep>` at `Rep = ℚ`: the stored
displacement from the origin, tagged with reference and origin. -/
structure quantity_point where
  ref : reference
  origin : point_origin
  displacement : ℚ
deriving DecidableEq, Repr

/-- The converting constructor of `quantity_point` (quantity_point.hpp
lines 460-481): rescale the source displacement by the reference
conversion factor, and add `origin_offset` exactly when the origins
differ. -/
def quantity_point_convert (p : quantity_point) (toRef : reference)
    (toOrigin : point_origin) : Option quantity_point :=
  (reference_conversion_factor p.ref toRef).bind fun c =>
  if p.origin = toOrigin then some ⟨toRef, toOrigin, p.displacement * c⟩
  else
    (origin_offset p.origin toOrigin toRef).bind fun off =>
    some ⟨toRef, toOrigin, p.displacement * c + off⟩

/-- `quantity_point::operator-(const quantity_point &)` (point − point
= displacement); in C++ both operands have the same type
`quantity_point<Ref, Origin, Rep>`, which the theorems carry as a
hypothesis. -/
def quantity_point_sub (p other : quantity_point) : quantity :=
  ⟨p.ref, p.displacement - other.displacement⟩

/-- `quantity_point::operator+(const quantity_type &)` (point +
quantity = point); the delta has the point's quantity type in C++. -/
def quantity_point_add_q (p : quantity_point) (delta : quantity) : quantity_point :=
  ⟨p.ref, p.origin, p.displacement + delta.val⟩

/-- `quantity_point::operator-(const quantity_type &)` (point −
quantity = point). -/
def quantity_point_sub_q (p : quantity_point) (delta : quantity) : quantity_point :=
  ⟨p.ref, p.origin, p.displacement - delta.val⟩

/-!
The concrete catalog entries used by the concrete scenarios of the
claims (isq/base.hpp, isq/mechanics.hpp, si/base.hpp, si/prefixes.hpp,
si/derived.hpp, si/temperature.hpp).
-/

def length_t : Spec := Spec.root 0

def mass_t : Spec := Spec.root 1

def time_t : Spec := Spec.root 2

def thermodynamic_temperature_t : Spec := Spec.root 3

def width_t : Spec := Spec.sub 10 length_t

def height_t : Spec := Spec.sub 11 length_t

def energy_t : Spec := Spec.root 20

def kinetic_energy_t : Spec := Spec.sub 21 energy_t

def work_t : Spec := Spec.sub 22 energy_t

def torque_t : Spec := Spec.root 30

def metre_t : unit_t := ⟨0, ⟨1, 1⟩⟩

def second_t : unit_t := ⟨1, ⟨1, 1⟩⟩

def kelvin_t : unit_t := ⟨2, ⟨1, 1⟩⟩

def degree_celsius_t : unit_t := ⟨3, ⟨1, 1⟩⟩

def degree_fahrenheit_t : unit_t := ⟨4, ⟨5, 9⟩⟩

/-- `kilometre_t = prefixed_unit<"km", kilo, metre_t>`, whose
`magnitude_type` is `mag_multiply<magnitude<kilo>, metre magnitude>`. -/
def kilometre_t : unit_t := ⟨5, ⟨1000, 1⟩⟩

set_option maxRecDepth 8000 in
/-- Consistency of the stored kilometre magnitude with the
`mag_multiply` computation that `scaled_unit` performs. -/
theorem kilometre_mag_consistent :
    ratio_multiply ⟨1000, 1⟩ metre_t.mag = some kilometre_t.mag := by decide

def kelvin_ref : reference := ⟨thermodynamic_temperature_t, kelvin_t⟩

def celsius_ref : reference := ⟨thermodynamic_temperature_t, degree_celsius_t⟩

def absolute_zero_t : point_origin := point_origin.absolute thermodynamic_temperature_t

/-- `ice_point_t`: 273.15 K above absolute zero. -/
def ice_point_t : point_origin :=
  point_origin.relative absolute_zero_t kelvin_ref (27315 / 100)

/-! Helper facts for the unit / origin layers. -/

def origin_depth : point_origin → Nat
  | .absolute _ => 0
  | .relative b _ _ => origin_depth b + 1

theorem relative_ne_base (b : point_origin) (r : reference) (v : ℚ) :
    point_origin.relative b r v ≠ b := by
  intro h
  have := congrArg origin_depth h
  rw [origin_depth] at this
  omega

/-- Dividing a canonical nonzero ratio by itself succeeds and yields the
ratio 1 (the concrete computation `ratio_divide` performs, including
its overflow checks). -/
theorem ratio_divide_self {a : ratio} (ha : a.Canonical) (hn : a.num ≠ 0) :
    ratio_divide a a = some ⟨1, 1⟩ := by
  unfold ratio_divide
  rw [if_neg hn]
  have hg : gcdI a.den a.num = 1 := by
    unfold gcdI; rw [Int.gcd_comm]; exact_mod_cast ha.2
  have hinv : ratio.norm a.den a.num = ⟨sign a.num * a.den, iabs a.num⟩ := by
    unfold ratio.norm
    rw [hg, Int.tdiv_one, Int.tdiv_one]
  rw [hinv]
  unfold ratio_multiply
  have hg1 : gcdI a.num (iabs a.num) = iabs a.num := by
    rw [iabs_eq_natAbs]
    unfold gcdI
    have h1 : Int.gcd a.num ((a.num.natAbs : Int)) = a.num.natAbs := by
      show Nat.gcd a.num.natAbs ((a.num.natAbs : Int)).natAbs = a.num.natAbs
      rw [Int.natAbs_ofNat, Nat.gcd_self]
    exact_mod_cast h1
  have hg2 : gcdI (sign a.num * a.den) a.den = a.den := by
    unfold gcdI
    show ((Nat.gcd (sign a.num * a.den).natAbs a.den.natAbs : Nat) : Int) = a.den
    rw [Int.natAbs_mul, sign_natAbs hn, one_mul, Nat.gcd_self]
    exact Int.natAbs_of_nonneg ha.1.le
  have ht1 : a.num.tdiv (iabs a.num) = sign a.num := by
    rcases lt_or_gt_of_ne hn with h | h
    · have hab : iabs a.num = -a.num := by unfold iabs; rw [if_pos h]
      rw [hab, Int.tdiv_neg, Int.tdiv_self hn, sign_of_neg h]
    · have hab : iabs a.num = a.num := by unfold iabs; rw [if_neg (by omega)]
      rw [hab, Int.tdiv_self hn, sign_of_pos h]
  have ht2 : (sign a.num * a.den).tdiv a.den = sign a.num :=
    Int.mul_tdiv_cancel _ ha.1.ne'
  have ht3 : a.den.tdiv a.den = 1 := Int.tdiv_self ha.1.ne'
  have ht4 : (iabs a.num).tdiv (iabs a.num) = 1 := Int.tdiv_self (iabs_pos hn).ne'
  have hsq : sign a.num * sign a.num = 1 := by
    rcases lt_or_gt_of_ne hn with h | h
    · rw [sign_of_neg h]; norm_num
    · rw [sign_of_pos h]; norm_num
  have hs : safe_mul (sign a.num) (sign a.num) = some 1 := by
    refine (safe_mul_some_iff _ _ _).mpr ⟨?_, hsq.symm⟩
    rw [hsq]
    unfold InRange RMAX RMIN
    omega
  have hone : safe_mul (1 : Int) 1 = some 1 := by
    refine (safe_mul_some_iff _ _ _).mpr ⟨?_, by norm_num⟩
    unfold InRange RMAX RMIN
    omega
  dsimp only
  rw [hg1, hg2, ht1, ht2, ht3, ht4, hs, hone]
  simp only [Option.some_bind]
  have : ratio.norm 1 1 = (⟨1, 1⟩ : ratio) := by
    unfold ratio.norm gcdI sign iabs
    norm_num
  rw [this]

theorem canonical_toRat_ne_zero {r : ratio} (hc : r.Canonical) (hn : r.num ≠ 0) :
    r.toRat ≠ 0 :=
  div_ne_zero (Int.cast_ne_zero.mpr hn) (canonical_den_ne_zero hc)

theorem one_one_canonical : (⟨1, 1⟩ : ratio).Canonical := by
  constructor <;> norm_num [ratio.Canonical, Int.gcd]

theorem one_one_toRat : (⟨1, 1⟩ : ratio).toRat = 1 := by
  unfold ratio.toRat
  norm_num

/-!
The claims.
-/

/-- C1: `implicitly_convertible_v<From, To>` holds iff `From = To` or
`From` is a (possibly indirect) descendant of `To` along `parent_spec`
links; it never holds in the parent-to-child direction; and for the
unrelated root specs `torque_t` and `energy_t` it is false both
ways. -/
theorem C1_implicitly_convertible :
    (∀ F T : Spec, implicitly_convertible F T = true ↔ (F = T ∨ T ∈ ancestors F)) ∧
    (∀ F T : Spec, F ∈ ancestors T → implicitly_convertible F T = false) ∧
    implicitly_convertible torque_t energy_t = false ∧
    implicitly_convertible energy_t torque_t = false := by
  refine ⟨implicitly_convertible_iff, ?_, by decide, by decide⟩
  intro F T h
  have hd := mem_ancestors_depth h
  cases hx : implicitly_convertible F T with
  | false => rfl
  | true =>
    exfalso
    rcases (implicitly_convertible_iff F T).mp hx with rfl | h'
    · omega
    · have hd2 := mem_ancestors_depth h'
      omega

theorem C1_implicitly_convertible_witness :
    (implicitly_convertible width_t length_t = true
      ↔ (width_t = length_t ∨ length_t ∈ ancestors width_t)) ∧
    length_t ∈ ancestors width_t ∧
    implicitly_convertible length_t width_t = false :=
  ⟨C1_implicitly_convertible.1 width_t length_t, by decide,
    C1_implicitly_convertible.2.1 length_t width_t (by decide)⟩

/-- C2: the normalized `ratio<N, D>` (for `D ≠ 0`) has a positive
denominator coprime to the numerator and denotes the same rational
number as `N / D`; every arithmetic result is returned in this
canonical form; and for canonical ratios equality of the denoted
rationals coincides with structural equality. -/
theorem C2_ratio_canonical_form :
    (∀ N D : Int, D ≠ 0 →
      (ratio.norm N D).Canonical ∧ (ratio.norm N D).toRat = (N : ℚ) / (D : ℚ)) ∧
    (∀ a b r : ratio, a.Canonical → b.Canonical →
      (ratio_add a b = some r → r.Canonical) ∧
      (ratio_subtract a b = some r → r.Canonical) ∧
      (ratio_multiply a b = some r → r.Canonical) ∧
      (ratio_divide a b = some r → r.Canonical)) ∧
    (∀ (a : ratio) (e : Int) (r : ratio), a.Canonical →
      ratio_power a e = some r → r.Canonical) ∧
    (∀ a : ratio, a.Canonical → (ratio_negate a).Canonical ∧ (ratio_abs a).Canonical) ∧
    (∀ a r : ratio, ratio_inverse a = some r → r.Canonical) ∧
    (∀ r s : ratio, r.Canonical → s.Canonical → (r.toRat = s.toRat ↔ r = s)) := by
  refine ⟨fun N D hD => ⟨norm_canonical N D hD, norm_toRat N D hD⟩,
    fun a b r ha hb => ⟨fun h => (ratio_add_some ha hb h).1,
      fun h => (ratio_subtract_some ha hb h).1,
      fun h => (ratio_multiply_some ha hb h).1,
      fun h => (ratio_divide_some ha hb h).1⟩,
    fun a e r ha h => (ratio_power_some ha h).1,
    fun a ha => ⟨(ratio_negate_spec ha).1, (ratio_abs_spec ha).1⟩,
    fun a r h => (ratio_inverse_spec h).1,
    fun r s hr hs => ⟨canonical_toRat_inj hr hs, fun h => by rw [h]⟩⟩

theorem C2_ratio_canonical_form_witness :
    (ratio.norm 2 4).Canonical ∧ (ratio.norm 2 4).toRat = (2 : ℚ) / (4 : ℚ) :=
  C2_ratio_canonical_form.1 2 4 (by decide)

/-- C3: for representable operands, `safe_mul` (resp. `safe_add`) fails
exactly when the exact product (resp. sum) is not representable in
`ratio_int_t`, and otherwise returns the exact value; consequently
ratio addition and multiplication either fail or return the exact
rational result. -/
theorem C3_safe_arithmetic_exact :
    (∀ a b : Int, InRange a → InRange b →
      (safe_mul a b = none ↔ ¬ InRange (a * b)) ∧
      (∀ v, safe_mul a b = some v → v = a * b) ∧
      (safe_add a b = none ↔ ¬ InRange (a + b)) ∧
      (∀ v, safe_add a b = some v → v = a + b)) ∧
    (∀ a b r : ratio, a.Canonical → b.Canonical →
      (ratio_add a b = some r → r.toRat = a.toRat + b.toRat) ∧
      (ratio_multiply a b = some r → r.toRat = a.toRat * b.toRat)) := by
  refine ⟨fun a b ha hb => ⟨safe_mul_none_iff a b,
      fun v h => (safe_mul_some_val h).1,
      safe_add_none_iff a b ha hb,
      fun v h => safe_add_some_val h⟩,
    fun a b r ha hb => ⟨fun h => (ratio_add_some ha hb h).2,
      fun h => (ratio_multiply_some ha hb h).2⟩⟩

theorem C3_safe_arithmetic_exact_witness :
    (safe_mul (2 ^ 64) (2 ^ 64) = none ↔ ¬ InRange (2 ^ 64 * 2 ^ 64)) ∧
    (∀ v, safe_mul (2 ^ 64 : Int) (2 ^ 64) = some v → v = 2 ^ 64 * 2 ^ 64) ∧
    (safe_add (2 ^ 64 : Int) (2 ^ 64) = none ↔ ¬ InRange (2 ^ 64 + 2 ^ 64)) ∧
    (∀ v, safe_add (2 ^ 64 : Int) (2 ^ 64) = some v → v = 2 ^ 64 + 2 ^ 64) :=
  C3_safe_arithmetic_exact.1 (2 ^ 64) (2 ^ 64) (by decide) (by decide)

/-- Concrete conversion factors used by the concrete scenarios (the
ratio-level computation is evaluated by `decide`; the materialisation
to `ℚ` is evaluated by `norm_num`). -/
theorem cf_metre_kilometre :
    reference_conversion_factor ⟨length_t, metre_t⟩ ⟨length_t, kilometre_t⟩
      = some (1 / 1000) := by
  unfold reference_conversion_factor conversion_factor
  rw [show conversion_factor_t metre_t kilometre_t = some ⟨1, 1000⟩ from by decide]
  simp only [Option.map_some', Option.some.injEq]
  norm_num [ratio.toRat]

theorem cf_kilometre_metre :
    reference_conversion_factor ⟨length_t, kilometre_t⟩ ⟨length_t, metre_t⟩
      = some 1000 := by
  unfold reference_conversion_factor conversion_factor
  rw [show conversion_factor_t kilometre_t metre_t = some ⟨1000, 1⟩ from by decide]
  simp only [Option.map_some', Option.some.injEq]
  norm_num [ratio.toRat]

theorem cf_celsius_kelvin :
    reference_conversion_factor celsius_ref kelvin_ref = some 1 := by
  unfold celsius_ref kelvin_ref reference_conversion_factor conversion_factor
  dsimp only
  rw [show conversion_factor_t degree_celsius_t kelvin_t = some ⟨1, 1⟩ from by decide]
  simp only [Option.map_some', Option.some.injEq]
  norm_num [ratio.toRat]

theorem cf_kelvin_kelvin :
    reference_conversion_factor kelvin_ref kelvin_ref = some 1 := by
  unfold kelvin_ref reference_conversion_factor conversion_factor
  dsimp only
  rw [show conversion_factor_t kelvin_t kelvin_t = some ⟨1, 1⟩ from by decide]
  simp only [Option.map_some', Option.some.injEq]
  norm_num [ratio.toRat]

/-- C4: adding two quantities with distinct but compatible references
yields the quantity whose reference is `(common_quantity_spec, unit of
Ref1)` and whose value is the left value plus the right value rescaled
by the conversion factor from the right unit to the left unit; in
particular `1 km + 500 m` expressed in metres is `1500`. -/
theorem C4_quantity_addition :
    (∀ q1 q2 : quantity, q1.ref ≠ q2.ref →
      references_compatible q1.ref q2.ref = true →
      ∀ (cs : Spec) (f : ℚ), common_quantity_spec q1.ref.spec q2.ref.spec = some cs →
        reference_conversion_factor q2.ref q1.ref = some f →
        quantity_add q1 q2 = some ⟨⟨cs, q1.ref.unit⟩, q1.val + q2.val * f⟩) ∧
    ((quantity_add ⟨⟨length_t, kilometre_t⟩, 1⟩ ⟨⟨length_t, metre_t⟩, 500⟩).bind
        (fun q => quantity_in q metre_t)
      = some ⟨⟨length_t, metre_t⟩, 1500⟩) := by
  constructor
  · intro q1 q2 hne hcomp cs f hcs hf
    unfold quantity_add
    rw [if_neg hne, if_pos hcomp, hcs]
    simp only [Option.some_bind]
    rw [hf]
    simp only [Option.some_bind]
  · have hadd : quantity_add ⟨⟨length_t, kilometre_t⟩, 1⟩ ⟨⟨length_t, metre_t⟩, 500⟩
        = some ⟨⟨length_t, kilometre_t⟩, 1 + 500 * (1 / 1000)⟩ := by
      unfold quantity_add
      dsimp only
      rw [if_neg (by decide), if_pos (by decide),
        show common_quantity_spec length_t length_t = some length_t from by decide]
      simp only [Option.some_bind]
      rw [cf_metre_kilometre]
      simp only [Option.some_bind]
    rw [hadd]
    simp only [Option.some_bind]
    have hin : quantity_in ⟨⟨length_t, kilometre_t⟩, 1 + 500 * (1 / 1000)⟩ metre_t
        = some ⟨⟨length_t, metre_t⟩, (1 + 500 * (1 / 1000)) * 1000⟩ := by
      unfold quantity_in
      dsimp only
      rw [show conversion_factor kilometre_t metre_t = some 1000 from cf_kilometre_metre]
      simp only [Option.map_some']
    rw [hin]
    refine congrArg some ?_
    have hval : ((1 : ℚ) + 500 * (1 / 1000)) * 1000 = 1500 := by norm_num
    rw [hval]

theorem C4_quantity_addition_witness :
    quantity_add ⟨⟨length_t, kilometre_t⟩, 1⟩ ⟨⟨length_t, metre_t⟩, 500⟩
      = some ⟨⟨length_t, kilometre_t⟩, 1 + 500 * (1 / 1000)⟩ :=
  C4_quantity_addition.1 ⟨⟨length_t, kilometre_t⟩, 1⟩ ⟨⟨length_t, metre_t⟩, 500⟩
    (by decide) (by decide) length_t (1 / 1000) (by decide) cf_metre_kilometre

theorem relative_ne_of_depth {x y : point_origin}
    (h : origin_depth x ≠ origin_depth y) : x ≠ y :=
  fun he => h (congrArg origin_depth he)

/-- C5: converting a quantity_point rescales the displacement by the
unit conversion factor and adds `origin_offset(from, to)` exactly when
the origins differ; `origin_offset` is 0 for the same origin, minus
the stored offset (rescaled into the target reference) from a relative
origin to its base, and plus that offset from the base to the relative
origin. -/
theorem C5_point_conversion :
    (∀ (p : quantity_point) (toRef : reference) (c : ℚ),
      reference_conversion_factor p.ref toRef = some c →
      quantity_point_convert p toRef p.origin
        = some ⟨toRef, p.origin, p.displacement * c⟩) ∧
    (∀ (p : quantity_point) (toRef : reference) (toOrigin : point_origin) (c off : ℚ),
      reference_conversion_factor p.ref toRef = some c →
      p.origin ≠ toOrigin →
      origin_offset p.origin toOrigin toRef = some off →
      quantity_point_convert p toRef toOrigin
        = some ⟨toRef, toOrigin, p.displacement * c + off⟩) ∧
    (∀ (o : point_origin) (ref : reference), origin_offset o o ref = some 0) ∧
    (∀ (b : point_origin) (oRef : reference) (oVal : ℚ) (ref : reference) (c : ℚ),
      reference_conversion_factor oRef ref = some c →
      origin_offset (point_origin.relative b oRef oVal) b ref = some (-(oVal * c))) ∧
    (∀ (b : point_origin) (oRef : reference) (oVal : ℚ) (ref : reference) (c : ℚ),
      reference_conversion_factor oRef ref = some c →
      origin_offset b (point_origin.relative b oRef oVal) ref = some (oVal * c)) := by
  refine ⟨?_, ?_, ?_, ?_, ?_⟩
  · intro p toRef c hc
    unfold quantity_point_convert
    rw [hc]
    simp only [Option.some_bind, if_true]
  · intro p toRef toOrigin c off hc hne hoff
    unfold quantity_point_convert
    rw [hc]
    simp only [Option.some_bind]
    rw [if_neg hne, hoff]
    simp only [Option.some_bind]
  · intro o ref
    unfold origin_offset
    rw [if_pos rfl]
  · intro b oRef oVal ref c hc
    simp only [origin_offset]
    rw [if_neg (relative_ne_base b oRef oVal)]
    simp only [if_true]
    rw [hc]
    rfl
  · intro b oRef oVal ref c hc
    cases b with
    | absolute s =>
      simp only [origin_offset]
      rw [if_neg (Ne.symm (relative_ne_base (point_origin.absolute s) oRef oVal))]
      simp only [if_true]
      rw [hc]
      rfl
    | relative bb br bv =>
      simp only [origin_offset]
      rw [if_neg (Ne.symm (relative_ne_base (point_origin.relative bb br bv) oRef oVal)),
        if_neg (relative_ne_of_depth (by rw [origin_depth, origin_depth]; omega))]
      simp only [if_true]
      rw [hc]
      rfl

theorem ice_point_ne_absolute_zero : ice_point_t ≠ absolute_zero_t := by
  unfold ice_point_t absolute_zero_t
  exact fun h => point_origin.noConfusion h

theorem C5_point_conversion_witness :
    origin_offset ice_point_t absolute_zero_t kelvin_ref = some (-(27315 / 100 * 1)) ∧
    quantity_point_convert ⟨celsius_ref, ice_point_t, 0⟩ kelvin_ref absolute_zero_t
      = some ⟨kelvin_ref, absolute_zero_t, 0 * 1 + -(27315 / 100 * 1)⟩ :=
  ⟨C5_point_conversion.2.2.2.1 absolute_zero_t kelvin_ref (27315 / 100) kelvin_ref 1
      cf_kelvin_kelvin,
    C5_point_conversion.2.1 ⟨celsius_ref, ice_point_t, 0⟩ kelvin_ref absolute_zero_t
      1 (-(27315 / 100 * 1)) cf_celsius_kelvin ice_point_ne_absolute_zero
      (C5_point_conversion.2.2.2.1 absolute_zero_t kelvin_ref (27315 / 100) kelvin_ref 1
        cf_kelvin_kelvin)⟩

/-- C6: the exact conversion factor from a unit to itself is the ratio
1, and the exact-ratio product of the two opposite conversion factors
of any two units is the ratio 1. -/
theorem C6_conversion_factor_identities :
    (∀ u : unit_t, u.mag.Canonical → u.mag.num ≠ 0 →
      conversion_factor_t u u = some ⟨1, 1⟩) ∧
    (∀ (A B : unit_t) (f1 f2 p : ratio), A.mag.Canonical → B.mag.Canonical →
      conversion_factor_t A B = some f1 → conversion_factor_t B A = some f2 →
      ratio_multiply f1 f2 = some p → p = ⟨1, 1⟩) := by
  constructor
  · intro u hc hn
    exact ratio_divide_self hc hn
  · intro A B f1 f2 p hA hB h1 h2 hm
    unfold conversion_factor_t at h1 h2
    have hBnum : B.mag.num ≠ 0 := by
      intro hz
      unfold ratio_divide at h1
      rw [if_pos hz] at h1
      exact Option.noConfusion h1
    have hAnum : A.mag.num ≠ 0 := by
      intro hz
      unfold ratio_divide at h2
      rw [if_pos hz] at h2
      exact Option.noConfusion h2
    obtain ⟨hf1c, hf1v⟩ := ratio_divide_some hA hB h1
    obtain ⟨hf2c, hf2v⟩ := ratio_divide_some hB hA h2
    obtain ⟨hpc, hpv⟩ := ratio_multiply_some hf1c hf2c hm
    apply canonical_toRat_inj hpc one_one_canonical
    rw [hpv, hf1v, hf2v, one_one_toRat]
    have hA0 : A.mag.toRat ≠ 0 := canonical_toRat_ne_zero hA hAnum
    have hB0 : B.mag.toRat ≠ 0 := canonical_toRat_ne_zero hB hBnum
    field_simp

theorem C6_conversion_factor_identities_witness :
    conversion_factor_t degree_fahrenheit_t degree_fahrenheit_t = some ⟨1, 1⟩ ∧
    ((⟨1, 1⟩ : ratio) = ⟨1, 1⟩) :=
  ⟨C6_conversion_factor_identities.1 degree_fahrenheit_t (by decide) (by decide),
    C6_conversion_factor_identities.2 kilometre_t metre_t ⟨1000, 1⟩ ⟨1, 1000⟩ ⟨1, 1⟩
      (by decide) (by decide) (by decide) (by decide) (by decide)⟩

/-- C7 (claim fails on the code): the implicit converting constructor
of `quantity` only requires `std::convertible_to<OtherRep, Rep>`,
which C++ satisfies for the narrowing conversion double → float; so
with distinct references the lossy implicit conversion exists, with
the value rescaled by the conversion factor, contrary to the claim
(and to the intent documented in tests/compile_fail/implicit_narrowing.cpp). -/
theorem C7_narrowing_implicit_conversion_admitted :
    quantity_implicit_conversion_exists ⟨length_t, metre_t⟩ ⟨length_t, kilometre_t⟩
      RepTy.f32 RepTy.f64 = true ∧
    convertible_to RepTy.f64 RepTy.f32 = true ∧
    quantity_convert ⟨⟨length_t, kilometre_t⟩, 1⟩ ⟨length_t, metre_t⟩
      = some ⟨⟨length_t, metre_t⟩, 1 * 1000⟩ := by
  refine ⟨by decide, by decide, ?_⟩
  unfold quantity_convert
  dsimp only
  rw [cf_kilometre_metre]
  simp only [Option.map_some']

/-- C8: ratio addition and multiplication are commutative (including
the overflow behaviour), and ratio addition is associative whenever
the intermediate operations are defined, with structural equality of
the normalized results. -/
theorem C8_ratio_algebra :
    (∀ a b : ratio, ratio_add a b = ratio_add b a) ∧
    (∀ a b : ratio, ratio_multiply a b = ratio_multiply b a) ∧
    (∀ a b c ab bc l1 l2 : ratio, a.Canonical → b.Canonical → c.Canonical →
      ratio_add a b = some ab → ratio_add ab c = some l1 →
      ratio_add b c = some bc → ratio_add a bc = some l2 → l1 = l2) :=
  ⟨ratio_add_comm, ratio_multiply_comm,
    fun _ _ _ _ _ _ _ ha hb hc h1 h2 h3 h4 => ratio_add_assoc ha hb hc h1 h2 h3 h4⟩

theorem C8_ratio_algebra_witness :
    ratio.Canonical ⟨1, 2⟩ ∧ ((⟨1, 1⟩ : ratio) = ⟨1, 1⟩) :=
  ⟨by decide,
    C8_ratio_algebra.2.2 ⟨1, 2⟩ ⟨1, 3⟩ ⟨1, 6⟩ ⟨5, 6⟩ ⟨1, 2⟩ ⟨1, 1⟩ ⟨1, 1⟩
      (by decide) (by decide) (by decide) (by decide) (by decide) (by decide)
      (by decide)⟩

/-- C9: for a point and a displacement of the point's quantity type,
`(p + d) - d = p`, and for two points of the same type,
`p2 + (p1 - p2) = p1`. -/
theorem C9_point_laws :
    (∀ (p : quantity_point) (d : quantity), d.ref = p.ref →
      quantity_point_sub_q (quantity_point_add_q p d) d = p) ∧
    (∀ p1 p2 : quantity_point, p1.ref = p2.ref → p1.origin = p2.origin →
      quantity_point_add_q p2 (quantity_point_sub p1 p2) = p1) := by
  constructor
  · intro p d hd
    unfold quantity_point_add_q quantity_point_sub_q
    cases p with
    | mk ref origin disp =>
      dsimp only
      rw [add_sub_cancel_right]
  · intro p1 p2 h1 h2
    unfold quantity_point_sub quantity_point_add_q
    cases p1 with
    | mk r1 o1 d1 =>
      cases p2 with
      | mk r2 o2 d2 =>
        dsimp only at h1 h2 ⊢
        subst h1
        subst h2
        congr 1
        ring

theorem C9_point_laws_witness :
    quantity_point_sub_q
        (quantity_point_add_q ⟨kelvin_ref, absolute_zero_t, 5⟩ ⟨kelvin_ref, 2⟩)
        ⟨kelvin_ref, 2⟩
      = ⟨kelvin_ref, absolute_zero_t, 5⟩ ∧
    quantity_point_add_q ⟨kelvin_ref, absolute_zero_t, 3⟩
        (quantity_point_sub ⟨kelvin_ref, absolute_zero_t, 7⟩
          ⟨kelvin_ref, absolute_zero_t, 3⟩)
      = ⟨kelvin_ref, absolute_zero_t, 7⟩ :=
  ⟨C9_point_laws.1 ⟨kelvin_ref, absolute_zero_t, 5⟩ ⟨kelvin_ref, 2⟩ rfl,
    C9_point_laws.2 ⟨kelvin_ref, absolute_zero_t, 7⟩ ⟨kelvin_ref, absolute_zero_t, 3⟩
      rfl rfl⟩

/-- C10: `quantity::in` and `quantity::force_in` are the same function:
both rescale the value by the exact conversion factor into the
representation type and retag with `(same spec, new unit)`, with no
extra precision guard in `in`. -/
theorem C10_in_eq_force_in :
    ∀ (q : quantity) (u : unit_t), quantity_in q u = quantity_force_in q u :=
  fun _ _ => rfl

end UnitsCpp
